import Mathlib

/-!
Shallow embedding of the retrieval core of the `faq-service` repository.

Scores and weights are modelled as rationals (`ℚ`): query-time scoring in the
source is pure arithmetic over Python floats, and the claims under study are
about order, bounds and exact recombination, so exact arithmetic is the
faithful idealisation (floating-point rounding itself is not modelled).
Text is modelled as `List Char` / `String`.

Sources embedded:
* `app/kb_parser.py`   — `KnowledgeBaseParser.parse`, `_clean_text`
* `app/chromadb_service.py` — the distance→similarity conversion in `search`
* `app/tfidf_service.py` — the ranking step of `TFIDFService.search`
* `app/rag_service.py` — `HybridRAGService.search`, `get_context_for_llm`
-/

namespace FAQ

/-! ### Knowledge-base parser (`app/kb_parser.py`) -/

/-- Whitespace class used both by Python's `str.split()` and by the regex
class `\s` (ASCII part; the exotic Unicode spaces never occur in the
knowledge-base format and are omitted). -/
def isPyWs (c : Char) : Bool :=
  c = ' ' ∨ c = '\t' ∨ c = '\n' ∨ c = '\r' ∨ c = '\x0b' ∨ c = '\x0c'

/-- Worker for `splitWs`: `acc` holds the characters of the word currently
being scanned, in reverse. -/
def splitWsAux (acc : List Char) : List Char → List (List Char)
  | [] => if acc = [] then [] else [acc.reverse]
  | c :: cs =>
    if isPyWs c then
      if acc = [] then splitWsAux [] cs else acc.reverse :: splitWsAux [] cs
    else
      splitWsAux (c :: acc) cs

/-- Python `str.split()` with no separator argument: split on runs of
whitespace, discarding empty pieces. -/
def splitWs (s : List Char) : List (List Char) :=
  splitWsAux [] s

/-- `' '.join(words)`. -/
def joinSpace : List (List Char) → List Char
  | [] => []
  | [w] => w
  | w :: ws => w ++ ' ' :: joinSpace ws

/-- Python `str.strip()`: drop whitespace from both ends. -/
def pyStrip (s : List Char) : List Char :=
  ((s.dropWhile isPyWs).reverse.dropWhile isPyWs).reverse

/-- Worker for `collapseWs`: `prevWs` records whether the previous character
was whitespace (i.e. we are inside a run that has already emitted its
single replacement space). -/
def collapseWsAux (prevWs : Bool) : List Char → List Char
  | [] => []
  | c :: cs =>
    if isPyWs c then
      if prevWs then collapseWsAux true cs else ' ' :: collapseWsAux true cs
    else
      c :: collapseWsAux false cs

/-- Python `re.sub(r'\s+', ' ', s)`: every maximal whitespace run becomes a
single space. -/
def collapseWs (s : List Char) : List Char :=
  collapseWsAux false s

/-- `KnowledgeBaseParser._clean_text`: `' '.join(text.split())`, then
`strip()`, then `re.sub(r'\s+', ' ', ...)`. -/
def cleanText (s : List Char) : List Char :=
  collapseWs (pyStrip (joinSpace (splitWs s)))

/-- Split a character list at the first occurrence of the two-character
marker `[a, b]`: returns the part strictly before the marker and the
remainder starting with the marker (`[]` if the marker does not occur). -/
def breakMarker (a b : Char) : List Char → List Char × List Char
  | [] => ([], [])
  | [c] => ([c], [])
  | c₁ :: c₂ :: rest =>
    if c₁ = a ∧ c₂ = b then ([], c₁ :: c₂ :: rest)
    else
      let p := breakMarker a b (c₂ :: rest)
      (c₁ :: p.1, p.2)

/--
Model of `re.findall(r'Q:\s*(.*?)\s*A:\s*(.*?)(?=Q:|$)', content, re.DOTALL)`
for the fixed pattern of `KnowledgeBaseParser.parse`.

Each match starts at the next `Q:`; its lazy question group reaches to the
first following `A:`, and its lazy answer group reaches to the first
following `Q:` (where the next match resumes) or to the end of input.  The
`\s*` parts of the pattern only move whitespace out of the captured groups;
since `parse` immediately collapses all whitespace with `_clean_text`, the
captures are modelled as the full text between the markers, which cleans to
the same strings.  A `Q:` with no later `A:` matches nothing, and then no
later position can match either (any later `A:` would also follow this one).
-/
def findQAFuel : ℕ → List Char → List (List Char × List Char)
  | 0, _ => []
  | fuel + 1, s =>
    match breakMarker 'Q' ':' s with
    | (_, []) => []
    | (_, [_]) => []
    | (_, _ :: _ :: afterQ) =>
      match breakMarker 'A' ':' afterQ with
      | (_, []) => []
      | (_, [_]) => []
      | (question, _ :: _ :: afterA) =>
        (question, (breakMarker 'Q' ':' afterA).1) ::
          findQAFuel fuel (breakMarker 'Q' ':' afterA).2

/-- The full scan starts with fuel `s.length`, which always suffices: each
recursive step of `findQAFuel` consumes at least the four marker characters
`Q:`…`A:`, so the remainder shrinks by at least one character per step. -/
def findQA (s : List Char) : List (List Char × List Char) :=
  findQAFuel s.length s

/-- One parsed question/answer entry (`QAPair` in `app/kb_parser.py`; the
derived `to_text` composite is not needed by the claims). -/
structure QAPair where
  id : ℕ
  question : List Char
  answer : List Char
deriving DecidableEq, Repr

/-- The loop body of `KnowledgeBaseParser.parse`:
`for i, (question, answer) in enumerate(matches)`, cleaning both captures and
keeping the pair only when both cleaned strings are non-empty.  Note the
counter `i` advances on every match, kept or not. -/
def parseFrom (i : ℕ) : List (List Char × List Char) → List QAPair
  | [] => []
  | (q, a) :: rest =>
    if cleanText q ≠ [] ∧ cleanText a ≠ [] then
      ⟨i, cleanText q, cleanText a⟩ :: parseFrom (i + 1) rest
    else
      parseFrom (i + 1) rest

/-- Failure of `parse` (`raise ValueError("No Q&A pairs found ...")`). -/
inductive ParseError where
  | emptyKnowledgeBase
deriving DecidableEq, Repr

/-- `KnowledgeBaseParser.parse`, as a function of the file content (the file
read itself is out of scope): regex scan, clean/filter loop, and the
final emptiness check raising `ValueError`. -/
def parse (content : String) : Except ParseError (List QAPair) :=
  let pairs := parseFrom 0 (findQA content.data)
  if pairs = [] then .error .emptyKnowledgeBase else .ok pairs

/-! ### Vector-index similarity (`app/chromadb_service.py`, `search`) -/

/-- The distance→similarity conversion applied to each result in
`ChromaDBService.search` (lines 205–226): `1/(1+d)` when `d > 2`, otherwise
`1 - d/2`, then clamped to `[0, 1]`. -/
def distanceToSimilarity (d : ℚ) : ℚ :=
  let sim := if d > 2 then 1 / (1 + d) else 1 - d / 2
  max 0 (min 1 sim)

/-! ### Lexical ranking (`app/tfidf_service.py`, `search`)

The cosine similarities themselves are produced by the external `sklearn`
library; the repository's own code is the ranking step, embedded here as a
function of the per-document similarity values.  `docs` lists, in document
order, each document's entry id (`qa_pairs[idx]['id']`) and its cosine
similarity to the query (`similarities[idx]`). -/

/-- `np.argsort` over the enumerated documents: a sort by similarity
ascending, modelled as stable (equal values in index-ascending order).
NumPy's default introsort runs insertion sort — which is stable — on small
inputs, in particular on the two-element array of the counterexample below;
any stable sort computes the same list.  Kept enumerated so the positions
survive the sort. -/
def argsortAsc (docs : List (ℕ × ℚ)) : List (ℕ × ℕ × ℚ) :=
  List.insertionSort (fun a b => a.2.2 ≤ b.2.2) docs.enum

/-- The ranking step of `TFIDFService.search` (lines 150–161):
`top_indices = np.argsort(similarities)[::-1][:n_results]`, then keep
`(qa_id, score)` for each index with `similarities[idx] > 0`. -/
def tfidfRank (docs : List (ℕ × ℚ)) (n : ℕ) : List (ℕ × ℚ) :=
  (((argsortAsc docs).reverse.take n).filterMap
    fun p => if 0 < p.2.2 then some p.2 else none)

/-! ### Fusion engine (`app/rag_service.py`, `HybridRAGService.search`) -/

/-- `match_type` of a `HybridSearchResult`. -/
inductive MatchType where
  | semantic
  | keyword
  | both
deriving DecidableEq, Repr

/-- A `HybridSearchResult` (the `qa_pair` payload is represented by its id,
which is what identifies the entry; the diagnostic `explanation` string is
not modelled). -/
structure HybridSearchResult where
  qaId : ℕ
  semanticScore : ℚ
  keywordScore : ℚ
  combinedScore : ℚ
  matchType : MatchType
deriving DecidableEq, Repr

/-- Python `dict` assignment `m[k] = v` on an insertion-ordered dictionary:
replace in place when the key is present, append otherwise. -/
def dictInsert (k : ℕ) (v : HybridSearchResult) :
    List (ℕ × HybridSearchResult) → List (ℕ × HybridSearchResult)
  | [] => [(k, v)]
  | (k', v') :: rest =>
    if k' = k then (k, v) :: rest else (k', v') :: dictInsert k v rest

/-- Python `dict` lookup `m.get(k)` / `k in m`. -/
def dictFind (k : ℕ) : List (ℕ × HybridSearchResult) → Option HybridSearchResult
  | [] => none
  | (k', v') :: rest => if k' = k then some v' else dictFind k rest

/-- First loop of `HybridRAGService.search` (lines 169–181): one candidate
per semantic result, scored `similarity * semantic_weight`. -/
def addSemantic (ws : ℚ) (m : List (ℕ × HybridSearchResult)) :
    List (ℕ × ℚ) → List (ℕ × HybridSearchResult)
  | [] => m
  | (qaId, s) :: rest =>
    addSemantic ws (dictInsert qaId ⟨qaId, s, 0, s * ws, .semantic⟩ m) rest

/-- Second loop of `HybridRAGService.search` (lines 184–211): merge the
keyword results, updating an existing candidate in place or appending a
keyword-only candidate. -/
def addKeyword (ws wk : ℚ) (m : List (ℕ × HybridSearchResult)) :
    List (ℕ × ℚ) → List (ℕ × HybridSearchResult)
  | [] => m
  | (qaId, kscore) :: rest =>
    match dictFind qaId m with
    | some r =>
      addKeyword ws wk
        (dictInsert qaId
          ⟨qaId, r.semanticScore, kscore,
            r.semanticScore * ws + kscore * wk, .both⟩ m) rest
    | none =>
      addKeyword ws wk
        (dictInsert qaId ⟨qaId, 0, kscore, kscore * wk, .keyword⟩ m) rest

/-- Python's `list.sort(key=..., reverse=True)` is a stable descending sort;
any stable sort with the same comparison computes the same list. -/
def sortByCombinedDesc (l : List HybridSearchResult) : List HybridSearchResult :=
  List.insertionSort (fun a b => b.combinedScore ≤ a.combinedScore) l

/-- Steps 3–4 of `HybridRAGService.search` (lines 165–220): build the
`results_map` from the two result lists, sort its values by combined score
descending, and truncate to `n_results`. -/
def hybridFuse (sem kw : List (ℕ × ℚ)) (ws wk : ℚ) (n : ℕ) :
    List HybridSearchResult :=
  let m := addKeyword ws wk (addSemantic ws [] sem) kw
  (sortByCombinedDesc (m.map Prod.snd)).take n

/-- Failure of the external embedding call: `EmbeddingsService.create_embedding`
logs and re-raises any exception (lines 96–119), e.g. a connection error or
timeout from the provider. -/
inductive EmbeddingError where
  | providerFailure
deriving DecidableEq, Repr

/-- The query pipeline of `HybridRAGService.search` (lines 153–163) around
the fusion step: the embedding call is the first statement and is not
wrapped in any `try`/`except`, so its exception propagates out of `search`;
only on success are the two indices queried and fused.  `semSearch` is the
vector index's ranked output for the computed query embedding (an opaque
external lookup), `kw` the lexical index's output. -/
def searchWithEmbedding (emb : Except EmbeddingError (List ℚ))
    (semSearch : List ℚ → List (ℕ × ℚ)) (kw : List (ℕ × ℚ))
    (ws wk : ℚ) (n : ℕ) : Except EmbeddingError (List HybridSearchResult) :=
  match emb with
  | .error e => .error e
  | .ok qEmb => .ok (hybridFuse (semSearch qEmb) kw ws wk n)

/-! ### Context assembler (`app/rag_service.py`, `get_context_for_llm`) -/

/-- The sentinel returned when the search yields no results. -/
def noInfoSentinel : String :=
  "No relevant information found in the knowledge base."

/-- A single quote character (the header quotes the query with these). -/
def sq : String := ⟨[Char.ofNat 39]⟩

/-- The header prepended to a non-empty context (line 278). -/
def contextHeader (query : String) : String :=
  "Here are the most relevant Q&A pairs for the query " ++ sq ++ query ++ sq
    ++ ":\n\n"

/-- One rendered Q&A block (line 265). -/
def qaBlock (q a : String) : String :=
  "Q: " ++ q ++ "\nA: " ++ a

/-- The separator between blocks (line 275). -/
def contextSep : String := "\n\n---\n\n"

/-- The accumulation loop of `get_context_for_llm` (lines 260–272): add each
result's block unless it would push the running total past `maxLen`, in
which case stop (`break`, not skip).  `maxLen` is a Python `int`, hence `ℤ`. -/
def buildContextParts (maxLen : ℤ) : List String → ℤ → List String
  | [], _ => []
  | t :: rest, total =>
    if total + t.length > maxLen then []
    else t :: buildContextParts maxLen rest (total + t.length)

/-- `HybridRAGService.get_context_for_llm` (lines 253–280), as a function of
the ranked search results (pairs of question and answer text): the empty
case returns the sentinel; otherwise the joined surviving blocks are
prefixed with the header naming the query. -/
def getContextForLLM (results : List (String × String)) (query : String)
    (maxLen : ℤ) : String :=
  if results = [] then noInfoSentinel
  else
    contextHeader query ++
      String.intercalate contextSep
        (buildContextParts maxLen (results.map fun r => qaBlock r.1 r.2) 0)

/-! ### Auxiliary predicates and instances used by the statements -/

/-- The first character, if any, is not whitespace. -/
def noLeadingWs : List Char → Bool
  | [] => true
  | c :: _ => !isPyWs c

/-- No two consecutive whitespace characters. -/
def noDoubleWs : List Char → Bool
  | c₁ :: c₂ :: rest => !(isPyWs c₁ && isPyWs c₂) && noDoubleWs (c₂ :: rest)
  | _ => true

/-- Every whitespace character is a plain space. -/
def onlySpaceWs (s : List Char) : Bool :=
  s.all fun c => !isPyWs c || c = ' '

/-- Fully normalised text: no leading or trailing whitespace and no run of
two or more consecutive whitespace characters. -/
def wsClean (s : List Char) : Bool :=
  noLeadingWs s && noLeadingWs s.reverse && noDoubleWs s

/-- Total rendered length of a list of context blocks, as an integer
(the running `total_length` of `get_context_for_llm`). -/
def sumLen (ts : List String) : ℤ :=
  (ts.map fun t => (t.length : ℤ)).sum

instance : IsTotal HybridSearchResult
    (fun a b => b.combinedScore ≤ a.combinedScore) :=
  ⟨fun a b => le_total b.combinedScore a.combinedScore⟩

instance : IsTrans HybridSearchResult
    (fun a b => b.combinedScore ≤ a.combinedScore) :=
  ⟨fun _ _ _ hab hbc => le_trans hbc hab⟩

instance : IsTotal (ℕ × ℕ × ℚ) (fun a b => a.2.2 ≤ b.2.2) :=
  ⟨fun a b => le_total a.2.2 b.2.2⟩

instance : IsTrans (ℕ × ℕ × ℚ) (fun a b => a.2.2 ≤ b.2.2) :=
  ⟨fun _ _ _ hab hbc => le_trans hab hbc⟩

/-! ## Theorems -/

theorem distanceToSimilarity_eq (d : ℚ) :
    distanceToSimilarity d
      = max 0 (min 1 (if d > 2 then 1 / (1 + d) else 1 - d / 2)) := rfl

/-- C1 (amended): the conversion's result is always in `[0, 1]` — in
particular never negative — and it is monotonic non-increasing within each
of its two branches, on distances `≤ 2` and on distances `> 2`.  It is not
globally monotonic: it jumps upward across the branch boundary at
distance 2 (see the counterexample). -/
theorem claim1_similarity_bounded_piecewise_monotone :
    (∀ d : ℚ, 0 ≤ distanceToSimilarity d ∧ distanceToSimilarity d ≤ 1) ∧
    (∀ d₁ d₂ : ℚ, d₁ ≤ d₂ → d₂ ≤ 2 →
      distanceToSimilarity d₂ ≤ distanceToSimilarity d₁) ∧
    (∀ d₁ d₂ : ℚ, 2 < d₁ → d₁ ≤ d₂ →
      distanceToSimilarity d₂ ≤ distanceToSimilarity d₁) := by
  refine ⟨fun d => ⟨?_, ?_⟩, ?_, ?_⟩
  · rw [distanceToSimilarity_eq]; exact le_max_left _ _
  · rw [distanceToSimilarity_eq]
    exact max_le (by norm_num) (min_le_left _ _)
  · intro d₁ d₂ h12 h2
    rw [distanceToSimilarity_eq, distanceToSimilarity_eq,
      if_neg (by linarith : ¬ d₂ > 2), if_neg (by linarith : ¬ d₁ > 2)]
    exact max_le_max le_rfl (min_le_min le_rfl (by linarith))
  · intro d₁ d₂ h1 h12
    rw [distanceToSimilarity_eq, distanceToSimilarity_eq,
      if_pos (by linarith : d₂ > 2), if_pos (by linarith : d₁ > 2)]
    refine max_le_max le_rfl (min_le_min le_rfl ?_)
    exact one_div_le_one_div_of_le (by linarith) (by linarith)

/-- C1 counterexample to the claim as stated: the conversion is not
monotonic non-increasing over all non-negative distances — at the branch
boundary, distance `2` maps to similarity `0` but the larger distance `3`
maps to the larger similarity `1/4`. -/
theorem claim1_monotonicity_counterexample :
    0 ≤ (2:ℚ) ∧ (2:ℚ) ≤ 3 ∧
    distanceToSimilarity 2 < distanceToSimilarity 3 := by
  refine ⟨by norm_num, by norm_num, ?_⟩
  norm_num [distanceToSimilarity]

/-! Helper lemmas about the fusion engine's `results_map`. -/

theorem mem_dictInsert {k : ℕ} {v : HybridSearchResult}
    {m : List (ℕ × HybridSearchResult)} {p : ℕ × HybridSearchResult}
    (hp : p ∈ dictInsert k v m) : p = (k, v) ∨ p ∈ m := by
  induction m with
  | nil => simpa [dictInsert] using hp
  | cons q rest ih =>
    obtain ⟨k', v'⟩ := q
    by_cases h : k' = k
    · simp only [dictInsert, if_pos h, List.mem_cons] at hp
      rcases hp with h1 | h2
      · exact Or.inl h1
      · exact Or.inr (List.mem_cons_of_mem _ h2)
    · simp only [dictInsert, if_neg h, List.mem_cons] at hp
      rcases hp with h1 | h2
      · exact Or.inr (h1 ▸ List.mem_cons_self _ _)
      · rcases ih h2 with h3 | h4
        · exact Or.inl h3
        · exact Or.inr (List.mem_cons_of_mem _ h4)

theorem dictFind_mem {k : ℕ} {m : List (ℕ × HybridSearchResult)}
    {v : HybridSearchResult} (h : dictFind k m = some v) : (k, v) ∈ m := by
  induction m with
  | nil => simp [dictFind] at h
  | cons q rest ih =>
    obtain ⟨k', v'⟩ := q
    by_cases hk : k' = k
    · simp only [dictFind, if_pos hk] at h
      subst hk
      exact (Option.some_inj.mp h) ▸ List.mem_cons_self _ _
    · simp only [dictFind, if_neg hk] at h
      exact List.mem_cons_of_mem _ (ih h)

/-- `dictInsert` preserves distinctness of keys. -/
theorem dictInsert_keysPairwise {k : ℕ} {v : HybridSearchResult}
    {m : List (ℕ × HybridSearchResult)}
    (hm : m.Pairwise fun a b => a.1 ≠ b.1) :
    (dictInsert k v m).Pairwise fun a b => a.1 ≠ b.1 := by
  induction m with
  | nil => simp [dictInsert]
  | cons q rest ih =>
    obtain ⟨k', v'⟩ := q
    rw [List.pairwise_cons] at hm
    by_cases h : k' = k
    · rw [dictInsert, if_pos h]
      refine List.pairwise_cons.mpr ⟨fun q hq => ?_, hm.2⟩
      exact h ▸ hm.1 q hq
    · rw [dictInsert, if_neg h]
      refine List.pairwise_cons.mpr ⟨fun q hq => ?_, ih hm.2⟩
      rcases mem_dictInsert hq with h1 | h2
      · simpa [h1] using h
      · exact hm.1 q h2

/-- Any pointwise property of map entries survives the semantic loop,
provided it holds of every inserted semantic candidate. -/
theorem addSemantic_mem_preserve (ws : ℚ)
    (P : ℕ × HybridSearchResult → Prop) :
    ∀ (l : List (ℕ × ℚ)) (m : List (ℕ × HybridSearchResult)),
      (∀ p ∈ m, P p) →
      (∀ q ∈ l, P (q.1, ⟨q.1, q.2, 0, q.2 * ws, .semantic⟩)) →
      ∀ p ∈ addSemantic ws m l, P p
  | [], m, hm, _, p, hp => hm p hp
  | (qaId, s) :: rest, m, hm, hl, p, hp => by
    refine addSemantic_mem_preserve ws P rest _ ?_
      (fun q hq => hl q (List.mem_cons_of_mem _ hq)) p hp
    intro q hq
    rcases mem_dictInsert hq with h1 | h2
    · exact h1 ▸ hl (qaId, s) (List.mem_cons_self _ _)
    · exact hm q h2

/-- Any pointwise property of map entries survives the keyword loop,
provided it holds of inserted keyword-only candidates and is preserved by
the in-place `both` update. -/
theorem addKeyword_mem_preserve (ws wk : ℚ)
    (P : ℕ × HybridSearchResult → Prop) (kcond : ℚ → Prop)
    (hnew : ∀ (qaId : ℕ) (k : ℚ), kcond k →
      P (qaId, ⟨qaId, 0, k, k * wk, .keyword⟩))
    (hupd : ∀ (qaId : ℕ) (k : ℚ) (r : HybridSearchResult), kcond k →
      P (qaId, r) →
      P (qaId, ⟨qaId, r.semanticScore, k,
        r.semanticScore * ws + k * wk, .both⟩)) :
    ∀ (l : List (ℕ × ℚ)) (m : List (ℕ × HybridSearchResult)),
      (∀ p ∈ m, P p) → (∀ q ∈ l, kcond q.2) →
      ∀ p ∈ addKeyword ws wk m l, P p
  | [], m, hm, _, p, hp => hm p hp
  | (qaId, k) :: rest, m, hm, hl, p, hp => by
    have hk : kcond k := hl (qaId, k) (List.mem_cons_self _ _)
    have hl' : ∀ q ∈ rest, kcond q.2 :=
      fun q hq => hl q (List.mem_cons_of_mem _ hq)
    rw [addKeyword] at hp
    cases hfind : dictFind qaId m with
    | some r =>
      rw [hfind] at hp
      refine addKeyword_mem_preserve ws wk P kcond hnew hupd rest _ ?_ hl' p hp
      intro q hq
      rcases mem_dictInsert hq with h1 | h2
      · exact h1 ▸ hupd qaId k r hk (hm _ (dictFind_mem hfind))
      · exact hm q h2
    | none =>
      rw [hfind] at hp
      refine addKeyword_mem_preserve ws wk P kcond hnew hupd rest _ ?_ hl' p hp
      intro q hq
      rcases mem_dictInsert hq with h1 | h2
      · exact h1 ▸ hnew qaId k hk
      · exact hm q h2

/-- The semantic loop preserves distinctness of keys. -/
theorem addSemantic_keysPairwise (ws : ℚ) :
    ∀ (l : List (ℕ × ℚ)) (m : List (ℕ × HybridSearchResult)),
      (m.Pairwise fun a b => a.1 ≠ b.1) →
      (addSemantic ws m l).Pairwise fun a b => a.1 ≠ b.1
  | [], _, hm => hm
  | (_, _) :: rest, _, hm =>
    addSemantic_keysPairwise ws rest _ (dictInsert_keysPairwise hm)

/-- The keyword loop preserves distinctness of keys. -/
theorem addKeyword_keysPairwise (ws wk : ℚ) :
    ∀ (l : List (ℕ × ℚ)) (m : List (ℕ × HybridSearchResult)),
      (m.Pairwise fun a b => a.1 ≠ b.1) →
      (addKeyword ws wk m l).Pairwise fun a b => a.1 ≠ b.1
  | [], _, hm => hm
  | (qaId, _) :: rest, m, hm => by
    rw [addKeyword]
    cases dictFind qaId m with
    | some r =>
      exact addKeyword_keysPairwise ws wk rest _ (dictInsert_keysPairwise hm)
    | none =>
      exact addKeyword_keysPairwise ws wk rest _ (dictInsert_keysPairwise hm)

/-- Every fused output candidate comes from an entry of the final
`results_map`. -/
theorem mem_hybridFuse {sem kw : List (ℕ × ℚ)} {ws wk : ℚ} {n : ℕ}
    {r : HybridSearchResult} (hr : r ∈ hybridFuse sem kw ws wk n) :
    ∃ k, (k, r) ∈ addKeyword ws wk (addSemantic ws [] sem) kw := by
  have h1 : r ∈ sortByCombinedDesc
      ((addKeyword ws wk (addSemantic ws [] sem) kw).map Prod.snd) :=
    List.mem_of_mem_take hr
  have h2 : r ∈ (addKeyword ws wk (addSemantic ws [] sem) kw).map Prod.snd :=
    (List.perm_insertionSort _ _).mem_iff.mp h1
  obtain ⟨⟨k, v⟩, hp, hpr⟩ := List.mem_map.mp h2
  cases hpr
  exact ⟨k, hp⟩

/-- C2 (amended): every fused candidate's `combined_score` equals exactly
`semantic_score * semantic_weight + keyword_score * keyword_weight`
(exact arithmetic; no tolerance is needed over `ℚ`), and it lies in `[0, 1]`
provided the input scores lie in `[0, 1]` and the weights are non-negative
and sum to at most 1.  The original tolerance-only hypothesis on the weight
sum is not enough for the `[0, 1]` bound (see the counterexample). -/
theorem claim2_combined_score_recombination_and_bounds
    (sem kw : List (ℕ × ℚ)) (ws wk : ℚ) (n : ℕ)
    (hws : 0 ≤ ws) (hwk : 0 ≤ wk) (hsum : ws + wk ≤ 1)
    (hsem : ∀ q ∈ sem, 0 ≤ q.2 ∧ q.2 ≤ 1)
    (hkw : ∀ q ∈ kw, 0 ≤ q.2 ∧ q.2 ≤ 1) :
    ∀ r ∈ hybridFuse sem kw ws wk n,
      r.combinedScore = r.semanticScore * ws + r.keywordScore * wk ∧
      0 ≤ r.combinedScore ∧ r.combinedScore ≤ 1 := by
  intro r hr
  obtain ⟨k, hk⟩ := mem_hybridFuse hr
  have base : ∀ p ∈ addSemantic ws [] sem,
      (fun p : ℕ × HybridSearchResult =>
        p.2.combinedScore = p.2.semanticScore * ws + p.2.keywordScore * wk ∧
        0 ≤ p.2.semanticScore ∧ p.2.semanticScore ≤ 1 ∧
        0 ≤ p.2.keywordScore ∧ p.2.keywordScore ≤ 1) p := by
    refine addSemantic_mem_preserve ws _ sem [] (by simp) ?_
    intro q hq
    obtain ⟨h0, h1⟩ := hsem q hq
    exact ⟨by ring, h0, h1, le_refl 0, by norm_num⟩
  have main : ∀ p ∈ addKeyword ws wk (addSemantic ws [] sem) kw,
      (fun p : ℕ × HybridSearchResult =>
        p.2.combinedScore = p.2.semanticScore * ws + p.2.keywordScore * wk ∧
        0 ≤ p.2.semanticScore ∧ p.2.semanticScore ≤ 1 ∧
        0 ≤ p.2.keywordScore ∧ p.2.keywordScore ≤ 1) p := by
    refine addKeyword_mem_preserve ws wk _ (fun k => 0 ≤ k ∧ k ≤ 1)
      ?_ ?_ kw _ base (fun q hq => hkw q hq)
    · intro qaId k hkc
      exact ⟨by ring, le_refl 0, by norm_num, hkc.1, hkc.2⟩
    · intro qaId k rr hkc hPr
      exact ⟨rfl, hPr.2.1, hPr.2.2.1, hkc.1, hkc.2⟩
  obtain ⟨heq, hs0, hs1, hk0, hk1⟩ := main (k, r) hk
  refine ⟨heq, ?_, ?_⟩
  · rw [heq]
    exact add_nonneg (mul_nonneg hs0 hws) (mul_nonneg hk0 hwk)
  · rw [heq]
    nlinarith

/-- C2 counterexample to the claim as stated: with weights `0.605` and
`0.4` — which sum to 1 within the asserted tolerance `0.01` — and both
scores equal to the admissible value 1, the fused candidate's combined
score is `1.005 > 1`, outside `[0, 1]`. -/
theorem claim2_bounds_counterexample :
    |((121:ℚ)/200 + 2/5) - 1| < 1/100 ∧
    hybridFuse [(0, 1)] [(0, 1)] (121/200) (2/5) 1
      = [⟨0, 1, 1, 201/200, .both⟩] ∧
    (1:ℚ) < (201:ℚ)/200 := by
  refine ⟨by rw [abs_sub_lt_iff]; norm_num, ?_, by norm_num⟩
  norm_num [hybridFuse, addSemantic, addKeyword, dictInsert, dictFind,
    sortByCombinedDesc, List.insertionSort, List.orderedInsert]

/-- C2 witness: the amended theorem applied to a concrete fusion run. -/
theorem claim2_witness :
    (⟨1, 0, 1, 2/5, .keyword⟩ : HybridSearchResult).combinedScore
        = (⟨1, 0, 1, 2/5, .keyword⟩ : HybridSearchResult).semanticScore * (3/5)
          + (⟨1, 0, 1, 2/5, .keyword⟩ : HybridSearchResult).keywordScore * (2/5) ∧
    0 ≤ (⟨1, 0, 1, 2/5, .keyword⟩ : HybridSearchResult).combinedScore ∧
    (⟨1, 0, 1, 2/5, .keyword⟩ : HybridSearchResult).combinedScore ≤ 1 :=
  claim2_combined_score_recombination_and_bounds
    [(0, 1/2)] [(1, 1)] (3/5) (2/5) 5
    (by norm_num) (by norm_num) (by norm_num)
    (by norm_num) (by norm_num)
    ⟨1, 0, 1, 2/5, .keyword⟩
    (by norm_num [hybridFuse, addSemantic, addKeyword, dictInsert, dictFind,
      sortByCombinedDesc, List.insertionSort, List.orderedInsert])

/-- C3 (confirmed): the fused output never contains two candidates with the
same entry id, for any query results: the `results_map` is keyed by
`qa_id`, so each id yields at most one candidate. -/
theorem claim3_fusion_dedup (sem kw : List (ℕ × ℚ)) (ws wk : ℚ) (n : ℕ) :
    (hybridFuse sem kw ws wk n).Pairwise fun a b => a.qaId ≠ b.qaId := by
  have hkeys : (addKeyword ws wk (addSemantic ws [] sem) kw).Pairwise
      fun a b => a.1 ≠ b.1 :=
    addKeyword_keysPairwise ws wk kw _
      (addSemantic_keysPairwise ws sem [] (by simp))
  have hid : ∀ p ∈ addKeyword ws wk (addSemantic ws [] sem) kw,
      (fun p : ℕ × HybridSearchResult => p.2.qaId = p.1) p := by
    refine addKeyword_mem_preserve ws wk
      (fun p : ℕ × HybridSearchResult => p.2.qaId = p.1) (fun _ => True)
      (fun _ _ _ => rfl) (fun _ _ _ _ _ => rfl) kw _ ?_ (fun _ _ => trivial)
    exact addSemantic_mem_preserve ws
      (fun p : ℕ × HybridSearchResult => p.2.qaId = p.1) sem [] (by simp)
      fun _ _ => rfl
  have hvals : ((addKeyword ws wk (addSemantic ws [] sem) kw).map
      Prod.snd).Pairwise fun a b => a.qaId ≠ b.qaId := by
    rw [List.pairwise_map]
    refine hkeys.imp_of_mem ?_
    intro a b ha hb hne
    rw [hid a ha, hid b hb]
    exact hne
  have hsorted : (sortByCombinedDesc ((addKeyword ws wk
      (addSemantic ws [] sem) kw).map Prod.snd)).Pairwise
      fun a b => a.qaId ≠ b.qaId :=
    ((List.perm_insertionSort _ _).pairwise_iff fun h => Ne.symm h).mpr hvals
  exact List.Pairwise.sublist (List.take_sublist _ _) hsorted

/-- C4 (amended): the fused output is sorted by `combined_score` descending
and truncated to at most `n` results.  Ties are broken by the stable sort's
insertion order — semantic candidates in their returned order, then
keyword-only candidates — not by entry id ascending (see the
counterexample). -/
theorem claim4_sorted_descending_truncated (sem kw : List (ℕ × ℚ))
    (ws wk : ℚ) (n : ℕ) :
    ((hybridFuse sem kw ws wk n).Pairwise
      fun a b => b.combinedScore ≤ a.combinedScore) ∧
    (hybridFuse sem kw ws wk n).length ≤ n := by
  constructor
  · have hs : List.Sorted (fun a b => b.combinedScore ≤ a.combinedScore)
        (sortByCombinedDesc ((addKeyword ws wk (addSemantic ws [] sem)
          kw).map Prod.snd)) :=
      List.sorted_insertionSort _ _
    exact List.Pairwise.sublist (List.take_sublist _ _) hs
  · exact List.length_take_le _ _

/-- C4 counterexample to the claim as stated: two candidates tie at
combined score `3/10`, yet the one with the larger entry id (5, the
semantic hit, inserted first) precedes the one with the smaller id (3, the
keyword hit). -/
theorem claim4_tie_order_counterexample :
    (hybridFuse [(5, 1/2)] [(3, 3/4)] (3/5) (2/5) 5).map
        (fun r => r.qaId) = [5, 3] ∧
    (hybridFuse [(5, 1/2)] [(3, 3/4)] (3/5) (2/5) 5).map
        (fun r => r.combinedScore) = [3/10, 3/10] := by
  constructor <;>
    norm_num [hybridFuse, addSemantic, addKeyword, dictInsert, dictFind,
      sortByCombinedDesc, List.insertionSort, List.orderedInsert]

/-- C7 (amended): a failure of the external embedding call propagates out
of `HybridRAGService.search` — the whole query fails, with no degradation
to lexical-only ranking.  Only when the embedding call succeeds and the
semantic index merely returns no results does the engine rank from the
lexical results alone (every candidate then has semantic score 0 and
combined score `keyword_score * keyword_weight`). -/
theorem claim7_no_lexical_degradation_on_embedding_failure
    (f : List ℚ → List (ℕ × ℚ)) (kw : List (ℕ × ℚ)) (ws wk : ℚ) (n : ℕ)
    (e : EmbeddingError) :
    (searchWithEmbedding (.error e) f kw ws wk n = .error e) ∧
    (∀ emb, searchWithEmbedding (.ok emb) f kw ws wk n =
      .ok (hybridFuse (f emb) kw ws wk n)) ∧
    (∀ r ∈ hybridFuse [] kw ws wk n,
      r.semanticScore = 0 ∧ r.combinedScore = r.keywordScore * wk) := by
  refine ⟨rfl, fun _ => rfl, ?_⟩
  intro r hr
  obtain ⟨k, hk⟩ := mem_hybridFuse hr
  have main : ∀ p ∈ addKeyword ws wk (addSemantic ws [] []) kw,
      (fun p : ℕ × HybridSearchResult =>
        p.2.semanticScore = 0 ∧
        p.2.combinedScore = p.2.keywordScore * wk) p := by
    refine addKeyword_mem_preserve ws wk _ (fun _ => True)
      ?_ ?_ kw _ (by simp [addSemantic]) (fun _ _ => trivial)
    · intro qaId kk _
      exact ⟨rfl, rfl⟩
    · intro qaId kk rr _ hPr
      refine ⟨hPr.1, ?_⟩
      have h0 : rr.semanticScore = 0 := hPr.1
      rw [h0, zero_mul, zero_add]
  exact main (k, r) hk

/-- C7 counterexample to the claim as stated: with a failing embedding call
and a non-empty lexical result list (which fuses to a non-empty
lexical-only ranking), `search` returns the error — it does not return the
available lexical ranking. -/
theorem claim7_failure_counterexample :
    searchWithEmbedding (.error .providerFailure) (fun _ => [])
        [(0, 1/2)] (3/5) (2/5) 5 = .error .providerFailure ∧
    hybridFuse [] [(0, 1/2)] (3/5) (2/5) 5 = [⟨0, 0, 1/2, 1/5, .keyword⟩] := by
  refine ⟨rfl, ?_⟩
  norm_num [hybridFuse, addSemantic, addKeyword, dictInsert, dictFind,
    sortByCombinedDesc, List.insertionSort, List.orderedInsert]

/-- C7 witness: the amended theorem applied to a concrete lexical-only run. -/
theorem claim7_witness :
    (⟨0, 0, 1/2, 1/5, .keyword⟩ : HybridSearchResult).semanticScore = 0 ∧
    (⟨0, 0, 1/2, 1/5, .keyword⟩ : HybridSearchResult).combinedScore
      = (⟨0, 0, 1/2, 1/5, .keyword⟩ : HybridSearchResult).keywordScore * (2/5) :=
  (claim7_no_lexical_degradation_on_embedding_failure (fun _ => [])
    [(0, 1/2)] (3/5) (2/5) 5 .providerFailure).2.2
    ⟨0, 0, 1/2, 1/5, .keyword⟩
    (by norm_num [hybridFuse, addSemantic, addKeyword, dictInsert, dictFind,
      sortByCombinedDesc, List.insertionSort, List.orderedInsert])

/-- C6 (amended): the lexical ranking returns at most `n_results` pairs,
ordered by similarity descending, and excludes every document whose
similarity is `≤ 0`.  Similarity ties are broken by original document
position *descending* — the ascending `argsort` is reversed wholesale — not
ascending (see the counterexample). -/
theorem claim6_tfidf_rank_properties (docs : List (ℕ × ℚ)) (n : ℕ) :
    (tfidfRank docs n).length ≤ n ∧
    ((tfidfRank docs n).Pairwise fun a b => b.2 ≤ a.2) ∧
    ∀ p ∈ tfidfRank docs n, 0 < p.2 := by
  refine ⟨?_, ?_, ?_⟩
  · exact le_trans (List.length_filterMap_le _ _) (List.length_take_le _ _)
  · have hasc : List.Sorted (fun a b : ℕ × ℕ × ℚ => a.2.2 ≤ b.2.2)
        (argsortAsc docs) := List.sorted_insertionSort _ _
    have hdesc : (argsortAsc docs).reverse.Pairwise
        fun a b : ℕ × ℕ × ℚ => b.2.2 ≤ a.2.2 :=
      List.pairwise_reverse.mpr hasc
    have htake : ((argsortAsc docs).reverse.take n).Pairwise
        fun a b : ℕ × ℕ × ℚ => b.2.2 ≤ a.2.2 :=
      List.Pairwise.sublist (List.take_sublist _ _) hdesc
    rw [tfidfRank, List.pairwise_filterMap]
    refine htake.imp ?_
    intro a b hab x hx y hy
    by_cases ha : 0 < a.2.2
    · by_cases hb : 0 < b.2.2
      · rw [if_pos ha, Option.mem_def, Option.some_inj] at hx
        rw [if_pos hb, Option.mem_def, Option.some_inj] at hy
        rw [← hx, ← hy]
        exact hab
      · rw [if_neg hb] at hy
        exact absurd hy (by simp)
    · rw [if_neg ha] at hx
      exact absurd hx (by simp)
  · intro p hp
    obtain ⟨q, _, hq⟩ := List.mem_filterMap.mp hp
    by_cases h : 0 < q.2.2
    · rw [if_pos h, Option.some_inj] at hq
      rw [← hq]
      exact h
    · rw [if_neg h] at hq
      exact absurd hq (by simp)

/-- C6 counterexample to the claim as stated: two documents tie at
similarity `1/2`; the returned order is entry id `1` before entry id `0` —
ties are broken by original position descending, not ascending. -/
theorem claim6_tie_order_counterexample :
    tfidfRank [(0, 1/2), (1, 1/2)] 2 = [(1, 1/2), (0, 1/2)] := by
  norm_num [tfidfRank, argsortAsc, List.insertionSort, List.orderedInsert,
    List.enum, List.enumFrom, List.filterMap]

/-- C6 witness: the amended theorem applied to a concrete ranking. -/
theorem claim6_witness :
    (tfidfRank [(0, 1/2), (1, 1/2)] 2).length ≤ 2 ∧
    (0:ℚ) < ((1:ℕ), (1:ℚ)/2).2 :=
  ⟨(claim6_tfidf_rank_properties [(0, 1/2), (1, 1/2)] 2).1,
    (claim6_tfidf_rank_properties [(0, 1/2), (1, 1/2)] 2).2.2 (1, 1/2)
      (by norm_num [tfidfRank, argsortAsc, List.insertionSort,
        List.orderedInsert, List.enum, List.enumFrom, List.filterMap])⟩

/-- The accumulation loop never exceeds the character budget: starting from
`total`, the blocks it keeps sum to at most `max maxLen total`. -/
theorem buildContextParts_sumLen (maxLen : ℤ) :
    ∀ (ts : List String) (total : ℤ),
      total + sumLen (buildContextParts maxLen ts total) ≤ max maxLen total
  | [], total => by
    simp [buildContextParts, sumLen, le_max_right]
  | t :: rest, total => by
    rw [buildContextParts]
    by_cases h : total + t.length > maxLen
    · rw [if_pos h]
      simp [sumLen, le_max_right]
    · rw [if_neg h]
      have ih := buildContextParts_sumLen maxLen rest (total + t.length)
      have hmax : max maxLen (total + (t.length : ℤ)) = maxLen :=
        max_eq_left (by linarith [not_lt.mp h])
      rw [hmax] at ih
      have hlm : maxLen ≤ max maxLen total := le_max_left _ _
      simp only [sumLen, List.map_cons, List.sum_cons] at ih ⊢
      linarith

/-- C8 (amended): with zero candidates the assembler returns the fixed
no-information sentinel; with candidates it prepends the header naming the
query and keeps only a prefix of Q/A blocks whose accumulated length never
exceeds `max_chars` (so `max_chars = 0` yields the header alone, *not* the
sentinel — see the counterexample).  The embedding is a total function, so
no exception is possible. -/
theorem claim8_context_sentinel_and_budget
    (results : List (String × String)) (query : String) (maxLen : ℤ) :
    (results = [] → getContextForLLM results query maxLen = noInfoSentinel) ∧
    (results ≠ [] →
      getContextForLLM results query maxLen
        = contextHeader query ++ String.intercalate contextSep
            (buildContextParts maxLen
              (results.map fun r => qaBlock r.1 r.2) 0) ∧
      sumLen (buildContextParts maxLen
          (results.map fun r => qaBlock r.1 r.2) 0) ≤ max maxLen 0) := by
  constructor
  · intro h
    rw [getContextForLLM, if_pos h]
  · intro h
    refine ⟨by rw [getContextForLLM, if_neg h], ?_⟩
    have hb := buildContextParts_sumLen maxLen
      (results.map fun r => qaBlock r.1 r.2) 0
    simpa using hb

/-- C8 counterexample to the claim as stated: with one candidate and
`max_chars = 0`, the assembler does not return the sentinel — it returns
the bare header. -/
theorem claim8_maxchars_zero_counterexample :
    getContextForLLM [("q", "a")] "x" 0 ≠ noInfoSentinel ∧
    getContextForLLM [("q", "a")] "x" 0 = contextHeader "x" := by
  constructor
  · decide
  · rfl

/-- C8 witness: the amended theorem applied at concrete inputs. -/
theorem claim8_witness :
    getContextForLLM [] "x" 5 = noInfoSentinel ∧
    (getContextForLLM [("q", "a")] "x" 0
        = contextHeader "x" ++ String.intercalate contextSep
            (buildContextParts 0
              ([("q", "a")].map fun r : String × String => qaBlock r.1 r.2) 0) ∧
      sumLen (buildContextParts 0
          ([("q", "a")].map fun r : String × String => qaBlock r.1 r.2) 0)
        ≤ max 0 0) :=
  ⟨(claim8_context_sentinel_and_budget [] "x" 5).1 rfl,
    (claim8_context_sentinel_and_budget [("q", "a")] "x" 0).2 (by decide)⟩

/-! Helper lemmas about the parser loop. -/

theorem parse_ok_eq {content : String} {pairs : List QAPair}
    (h : parse content = .ok pairs) :
    pairs = parseFrom 0 (findQA content.data) := by
  rw [parse] at h
  by_cases h0 : parseFrom 0 (findQA content.data) = []
  · rw [if_pos h0] at h
    exact absurd h (by simp)
  · rw [if_neg h0] at h
    exact (Except.ok.inj h).symm

theorem parseFrom_id_ge :
    ∀ (ms : List (List Char × List Char)) (i : ℕ) (p : QAPair),
      p ∈ parseFrom i ms → i ≤ p.id
  | [], _, p, hp => absurd hp (by simp [parseFrom])
  | (q, a) :: rest, i, p, hp => by
    rw [parseFrom] at hp
    by_cases h : cleanText q ≠ [] ∧ cleanText a ≠ []
    · rw [if_pos h] at hp
      rcases List.mem_cons.mp hp with h1 | h2
      · rw [h1]
      · exact le_trans (Nat.le_succ i) (parseFrom_id_ge rest (i + 1) p h2)
    · rw [if_neg h] at hp
      exact le_trans (Nat.le_succ i) (parseFrom_id_ge rest (i + 1) p hp)

/-- The assigned ids are strictly increasing along the output. -/
theorem parseFrom_ids_pairwise :
    ∀ (ms : List (List Char × List Char)) (i : ℕ),
      ((parseFrom i ms).map QAPair.id).Pairwise (· < ·)
  | [], _ => by simp [parseFrom]
  | (q, a) :: rest, i => by
    rw [parseFrom]
    by_cases h : cleanText q ≠ [] ∧ cleanText a ≠ []
    · rw [if_pos h]
      rw [List.map_cons, List.pairwise_cons]
      constructor
      · intro x hx
        obtain ⟨p, hp, hpx⟩ := List.mem_map.mp hx
        have := parseFrom_id_ge rest (i + 1) p hp
        show i < x
        omega
      · exact parseFrom_ids_pairwise rest (i + 1)
    · rw [if_neg h]
      exact parseFrom_ids_pairwise rest (i + 1)

/-- Every produced entry's id is its 0-based position among *all* matches
(counted from `i`): the match found at that position cleans to exactly the
entry's question and answer, both non-empty. -/
theorem parseFrom_id_is_match_position :
    ∀ (ms : List (List Char × List Char)) (i : ℕ) (p : QAPair),
      p ∈ parseFrom i ms →
      ∃ m, ms[p.id - i]? = some m ∧
        p.question = cleanText m.1 ∧ p.answer = cleanText m.2 ∧
        p.question ≠ [] ∧ p.answer ≠ []
  | [], _, p, hp => absurd hp (by simp [parseFrom])
  | (q, a) :: rest, i, p, hp => by
    rw [parseFrom] at hp
    by_cases h : cleanText q ≠ [] ∧ cleanText a ≠ []
    · rw [if_pos h] at hp
      rcases List.mem_cons.mp hp with h1 | h2
      · subst h1
        exact ⟨(q, a), by simp, rfl, rfl, h.1, h.2⟩
      · obtain ⟨m, hm, hmq, hma, hq, ha⟩ :=
          parseFrom_id_is_match_position rest (i + 1) p h2
        have hge : i + 1 ≤ p.id := parseFrom_id_ge rest (i + 1) p h2
        refine ⟨m, ?_, hmq, hma, hq, ha⟩
        have hidx : p.id - i = (p.id - (i + 1)) + 1 := by omega
        rw [hidx]
        simpa using hm
    · rw [if_neg h] at hp
      obtain ⟨m, hm, hmq, hma, hq, ha⟩ :=
        parseFrom_id_is_match_position rest (i + 1) p hp
      have hge : i + 1 ≤ p.id := parseFrom_id_ge rest (i + 1) p hp
      refine ⟨m, ?_, hmq, hma, hq, ha⟩
      have hidx : p.id - i = (p.id - (i + 1)) + 1 := by omega
      rw [hidx]
      simpa using hm

/-- When every match survives cleaning, the ids are exactly the contiguous
range starting at the loop counter. -/
theorem parseFrom_all_survive :
    ∀ (ms : List (List Char × List Char)) (i : ℕ),
      (∀ m ∈ ms, cleanText m.1 ≠ [] ∧ cleanText m.2 ≠ []) →
      (parseFrom i ms).map QAPair.id = List.range' i ms.length
  | [], _, _ => by simp [parseFrom]
  | (q, a) :: rest, i, hall => by
    have hh := hall (q, a) (List.mem_cons_self _ _)
    rw [parseFrom, if_pos hh, List.map_cons,
      parseFrom_all_survive rest (i + 1)
        (fun m hm => hall m (List.mem_cons_of_mem _ hm))]
    rfl

/-! Helper lemmas: the output of `_clean_text` is fully normalised. -/

/-- Every word produced by `str.split()` is non-empty and whitespace-free. -/
theorem splitWsAux_words :
    ∀ (s acc : List Char), acc.all (fun c => !isPyWs c) = true →
      ∀ w ∈ splitWsAux acc s, w ≠ [] ∧ w.all (fun c => !isPyWs c) = true
  | [], acc, hacc, w, hw => by
    rw [splitWsAux] at hw
    by_cases h : acc = []
    · rw [if_pos h] at hw
      exact absurd hw (by simp)
    · rw [if_neg h] at hw
      have hw' : w = acc.reverse := by simpa using hw
      subst hw'
      exact ⟨by simpa using h, by simpa using hacc⟩
  | c :: cs, acc, hacc, w, hw => by
    rw [splitWsAux] at hw
    by_cases hc : isPyWs c
    · rw [if_pos hc] at hw
      by_cases h : acc = []
      · rw [if_pos h] at hw
        exact splitWsAux_words cs [] (by simp) w hw
      · rw [if_neg h] at hw
        rcases List.mem_cons.mp hw with h1 | h2
        · subst h1
          exact ⟨by simpa using h, by simpa using hacc⟩
        · exact splitWsAux_words cs [] (by simp) w h2
    · rw [if_neg hc] at hw
      refine splitWsAux_words cs (c :: acc) ?_ w hw
      simpa [hc] using hacc

/-- Prepending a non-whitespace character preserves `noDoubleWs`. -/
theorem noDoubleWs_cons_nonws {c : Char} {s : List Char}
    (hc : isPyWs c = false) (hs : noDoubleWs s = true) :
    noDoubleWs (c :: s) = true := by
  cases s with
  | nil => rfl
  | cons c₂ rest => simp [noDoubleWs, hc, hs]

/-- A whitespace-free list satisfies `noDoubleWs`. -/
theorem noDoubleWs_of_all :
    ∀ {w : List Char}, w.all (fun c => !isPyWs c) = true →
      noDoubleWs w = true
  | [], _ => rfl
  | c :: w', hw => by
    rw [List.all_cons, Bool.and_eq_true] at hw
    exact noDoubleWs_cons_nonws (by simpa using hw.1) (noDoubleWs_of_all hw.2)

/-- Prepending a whitespace-free list preserves `noDoubleWs`. -/
theorem noDoubleWs_append_nonws :
    ∀ {w : List Char}, w.all (fun c => !isPyWs c) = true → ∀ {s : List Char},
      noDoubleWs s = true → noDoubleWs (w ++ s) = true
  | [], _, _, hs => hs
  | c :: w', hw, s, hs => by
    rw [List.all_cons, Bool.and_eq_true] at hw
    exact noDoubleWs_cons_nonws (by simpa using hw.1)
      (noDoubleWs_append_nonws hw.2 hs)

/-- A whitespace-free list satisfies `onlySpaceWs`. -/
theorem onlySpaceWs_of_all {w : List Char}
    (hw : w.all (fun c => !isPyWs c) = true) : onlySpaceWs w = true := by
  rw [List.all_eq_true] at hw
  rw [onlySpaceWs, List.all_eq_true]
  intro c hc
  have h := hw c hc
  simp only [Bool.not_eq_true'] at h
  simp [h]

theorem noLeadingWs_of_all {w : List Char} (hne : w ≠ [])
    (hw : w.all (fun c => !isPyWs c) = true) : noLeadingWs w = true := by
  cases w with
  | nil => exact absurd rfl hne
  | cons c rest =>
    rw [List.all_cons, Bool.and_eq_true] at hw
    rw [noLeadingWs]
    exact hw.1

theorem noLeadingWs_append_left {xs : List Char} (hne : xs ≠ [])
    (hx : noLeadingWs xs = true) (ys : List Char) :
    noLeadingWs (xs ++ ys) = true := by
  cases xs with
  | nil => exact absurd rfl hne
  | cons c rest => exact hx

/-- `joinSpace` of a list headed by a non-empty word is non-empty. -/
theorem joinSpace_ne_nil :
    ∀ {w : List Char} {l : List (List Char)}, w ≠ [] →
      joinSpace (w :: l) ≠ []
  | [], _, hne => absurd rfl hne
  | c :: rest, [], _ => by simp [joinSpace]
  | c :: rest, w' :: l', _ => by simp [joinSpace]

/-- The space-joined list of non-empty, whitespace-free words is fully
normalised: no leading or trailing whitespace, no double whitespace, and
every whitespace character is a plain space. -/
theorem joinSpace_clean :
    ∀ (l : List (List Char)),
      (∀ w ∈ l, w ≠ [] ∧ w.all (fun c => !isPyWs c) = true) →
      noDoubleWs (joinSpace l) = true ∧
      onlySpaceWs (joinSpace l) = true ∧
      noLeadingWs (joinSpace l) = true ∧
      noLeadingWs (joinSpace l).reverse = true
  | [], _ => by simp [joinSpace, noDoubleWs, onlySpaceWs, noLeadingWs]
  | [w], hl => by
    obtain ⟨hne, hall⟩ := hl w (List.mem_cons_self _ _)
    rw [show joinSpace [w] = w from rfl]
    exact ⟨noDoubleWs_of_all hall, onlySpaceWs_of_all hall,
      noLeadingWs_of_all hne hall,
      noLeadingWs_of_all (by simpa using hne) (by simpa using hall)⟩
  | w :: w' :: l', hl => by
    obtain ⟨hne, hall⟩ := hl w (List.mem_cons_self _ _)
    have hl' : ∀ u ∈ w' :: l', u ≠ [] ∧ u.all (fun c => !isPyWs c) = true :=
      fun u hu => hl u (List.mem_cons_of_mem _ hu)
    obtain ⟨ihnd, ihos, ihlead, ihtrail⟩ := joinSpace_clean (w' :: l') hl'
    have hJne : joinSpace (w' :: l') ≠ [] :=
      joinSpace_ne_nil (hl' w' (List.mem_cons_self _ _)).1
    have hstep : joinSpace (w :: w' :: l')
        = w ++ ' ' :: joinSpace (w' :: l') := rfl
    rw [hstep]
    refine ⟨?_, ?_, ?_, ?_⟩
    · refine noDoubleWs_append_nonws hall ?_
      cases hJ : joinSpace (w' :: l') with
      | nil => rfl
      | cons c rest =>
        have hcnw : isPyWs c = false := by
          rw [hJ, noLeadingWs] at ihlead
          simpa using ihlead
        rw [hJ] at ihnd
        simp [noDoubleWs, hcnw, ihnd]
    · rw [onlySpaceWs, List.all_append, List.all_cons]
      rw [onlySpaceWs] at ihos
      refine (Bool.and_eq_true _ _).mpr ⟨?_, (Bool.and_eq_true _ _).mpr ⟨?_, ihos⟩⟩
      · exact onlySpaceWs_of_all hall
      · simp
    · exact noLeadingWs_append_left hne (noLeadingWs_of_all hne hall) _
    · rw [List.reverse_append, List.reverse_cons]
      refine noLeadingWs_append_left ?_ ?_ _
      · simp [hJne]
      · exact noLeadingWs_append_left (by simpa using hJne) ihtrail _

/-- `str.strip()` leaves a string with no edge whitespace unchanged. -/
theorem pyStrip_id {s : List Char} (hlead : noLeadingWs s = true)
    (htrail : noLeadingWs s.reverse = true) : pyStrip s = s := by
  have hdw : ∀ (t : List Char), noLeadingWs t = true →
      t.dropWhile isPyWs = t := by
    intro t ht
    cases t with
    | nil => rfl
    | cons c rest =>
      rw [noLeadingWs] at ht
      rw [List.dropWhile_cons, if_neg (by simpa using ht)]
  rw [pyStrip, hdw s hlead, hdw s.reverse htrail, List.reverse_reverse]

theorem noDoubleWs_tail {c : Char} {s : List Char}
    (h : noDoubleWs (c :: s) = true) : noDoubleWs s = true := by
  cases s with
  | nil => rfl
  | cons c₂ rest =>
    rw [noDoubleWs, Bool.and_eq_true] at h
    exact h.2

theorem onlySpaceWs_tail {c : Char} {s : List Char}
    (h : onlySpaceWs (c :: s) = true) : onlySpaceWs s = true := by
  rw [onlySpaceWs, List.all_cons, Bool.and_eq_true] at h
  exact h.2

/-- `re.sub(r'\s+', ' ', ...)` leaves an already-normalised string (isolated
single spaces only) unchanged. -/
theorem collapseWsAux_id :
    ∀ (s : List Char), noDoubleWs s = true → onlySpaceWs s = true →
      collapseWsAux false s = s ∧
      (noLeadingWs s = true → collapseWsAux true s = s)
  | [], _, _ => ⟨rfl, fun _ => rfl⟩
  | c :: cs, hnd, hos => by
    by_cases hw : isPyWs c
    · have hc : c = ' ' := by
        rw [onlySpaceWs, List.all_cons, Bool.and_eq_true] at hos
        have h1 := hos.1
        simp only [hw, Bool.not_true, Bool.false_or, decide_eq_true_eq] at h1
        exact h1
      constructor
      · rw [collapseWsAux, if_pos hw]
        cases cs with
        | nil => simp [collapseWsAux, hc]
        | cons c₂ cs₂ =>
          have hnw₂ : isPyWs c₂ = false := by
            rw [noDoubleWs, Bool.and_eq_true] at hnd
            have h1 := hnd.1
            simpa [hw] using h1
          obtain ⟨_, htrue⟩ := collapseWsAux_id (c₂ :: cs₂)
            (noDoubleWs_tail hnd) (onlySpaceWs_tail hos)
          rw [htrue (by rw [noLeadingWs]; simp [hnw₂]), hc]
          simp
      · intro hlead
        rw [noLeadingWs] at hlead
        simp [hw] at hlead
    · obtain ⟨hfalse, _⟩ := collapseWsAux_id cs
        (noDoubleWs_tail hnd) (onlySpaceWs_tail hos)
      constructor
      · rw [collapseWsAux, if_neg hw, hfalse]
      · rw [collapseWsAux, if_neg hw, hfalse]
        exact fun _ => rfl

/-- The output of `_clean_text` is fully normalised. -/
theorem wsClean_cleanText (s : List Char) : wsClean (cleanText s) = true := by
  have hgood : ∀ w ∈ splitWs s, w ≠ [] ∧ w.all (fun c => !isPyWs c) = true :=
    splitWsAux_words s [] (by simp)
  obtain ⟨hnd, hos, hlead, htrail⟩ := joinSpace_clean (splitWs s) hgood
  have hstrip : pyStrip (joinSpace (splitWs s)) = joinSpace (splitWs s) :=
    pyStrip_id hlead htrail
  have hcoll : collapseWs (joinSpace (splitWs s)) = joinSpace (splitWs s) :=
    (collapseWsAux_id _ hnd hos).1
  rw [cleanText, hstrip]
  rw [show collapseWs (joinSpace (splitWs s)) = joinSpace (splitWs s) from hcoll]
  rw [wsClean, hnd, hlead, htrail]
  rfl

/-- C5 (amended): the ids returned by `parse` are unique and strictly
increasing, and each is the 0-based position of the entry's match among
*all* regex matches, surviving or not (the loop's `enumerate` counter
advances past discarded matches).  They form the contiguous range
`0, …, m-1` when every match survives cleaning — but not in general (see
the counterexample). -/
theorem claim5_ids_positions_among_all_matches (content : String)
    (pairs : List QAPair) (h : parse content = .ok pairs) :
    ((pairs.map QAPair.id).Pairwise (· < ·)) ∧
    (∀ p ∈ pairs, ∃ m, (findQA content.data)[p.id]? = some m ∧
      p.question = cleanText m.1 ∧ p.answer = cleanText m.2) ∧
    ((∀ m ∈ findQA content.data,
        cleanText m.1 ≠ [] ∧ cleanText m.2 ≠ []) →
      pairs.map QAPair.id = List.range (findQA content.data).length) := by
  have hp := parse_ok_eq h
  subst hp
  refine ⟨parseFrom_ids_pairwise _ 0, ?_, ?_⟩
  · intro p hp
    obtain ⟨m, hm, hq, ha, _, _⟩ := parseFrom_id_is_match_position _ 0 p hp
    exact ⟨m, by simpa using hm, hq, ha⟩
  · intro hall
    rw [parseFrom_all_survive _ 0 hall, List.range_eq_range']

/-- C5 counterexample to the claim as stated: in
`"Q: A: x Q: foo A: bar"` the first match's question cleans to empty and is
discarded, yet one valid pair survives; the surviving entry carries id 1,
so the ids are not the contiguous 0-based range. -/
theorem claim5_contiguity_counterexample :
    parse "Q: A: x Q: foo A: bar"
      = .ok [⟨1, "foo".data, "bar".data⟩] ∧
    (parseFrom 0 (findQA "Q: A: x Q: foo A: bar".data)).map QAPair.id
      ≠ List.range
        (parseFrom 0 (findQA "Q: A: x Q: foo A: bar".data)).length := by
  constructor
  · rfl
  · decide

/-- C5 witness: the amended theorem applied to a concrete knowledge base. -/
theorem claim5_witness :
    (([⟨0, "foo".data, "bar".data⟩] : List QAPair).map
      QAPair.id).Pairwise (· < ·) :=
  (claim5_ids_positions_among_all_matches "Q: foo A: bar"
    [⟨0, "foo".data, "bar".data⟩] (by rfl)).1

/-- C9 (confirmed): when zero valid question/answer pairs survive cleaning,
`parse` fails with the empty-knowledge-base error rather than returning an
empty entry list. -/
theorem claim9_empty_parse_error (content : String)
    (h : parseFrom 0 (findQA content.data) = []) :
    parse content = .error .emptyKnowledgeBase := by
  rw [parse, if_pos h]

/-- C9 witness: a text with no `Q:`/`A:` structure at all parses to the
error. -/
theorem claim9_witness :
    parse "hello" = .error .emptyKnowledgeBase :=
  claim9_empty_parse_error "hello" (by rfl)

/-- C10 (confirmed): the ids in `parse`'s output are strictly increasing in
output order (hence unique), and every returned entry has a non-empty
question and answer with no leading or trailing whitespace and no run of
two or more consecutive whitespace characters. -/
theorem claim10_ids_increasing_entries_clean (content : String)
    (pairs : List QAPair) (h : parse content = .ok pairs) :
    ((pairs.map QAPair.id).Pairwise (· < ·)) ∧
    ∀ p ∈ pairs, p.question ≠ [] ∧ p.answer ≠ [] ∧
      wsClean p.question = true ∧ wsClean p.answer = true := by
  have hp := parse_ok_eq h
  subst hp
  refine ⟨parseFrom_ids_pairwise _ 0, ?_⟩
  intro p hp
  obtain ⟨m, _, hq, ha, hqne, hane⟩ := parseFrom_id_is_match_position _ 0 p hp
  refine ⟨hqne, hane, ?_, ?_⟩
  · rw [hq]
    exact wsClean_cleanText _
  · rw [ha]
    exact wsClean_cleanText _

/-- C10 witness: the theorem applied to a knowledge base whose raw question
contains a run of spaces, which parses to a normalised entry. -/
theorem claim10_witness :
    (⟨0, "a b".data, "c".data⟩ : QAPair).question ≠ [] ∧
    (⟨0, "a b".data, "c".data⟩ : QAPair).answer ≠ [] ∧
    wsClean (⟨0, "a b".data, "c".data⟩ : QAPair).question = true ∧
    wsClean (⟨0, "a b".data, "c".data⟩ : QAPair).answer = true :=
  (claim10_ids_increasing_entries_clean "Q: a   b A: c"
    [⟨0, "a b".data, "c".data⟩] (by rfl)).2
    ⟨0, "a b".data, "c".data⟩ (by simp)

/-- C1 witness: the amended theorem applied at concrete distances. -/
theorem claim1_witness :
    (0 ≤ distanceToSimilarity 1 ∧ distanceToSimilarity 1 ≤ 1) ∧
    distanceToSimilarity 2 ≤ distanceToSimilarity 1 ∧
    distanceToSimilarity 4 ≤ distanceToSimilarity 3 :=
  ⟨claim1_similarity_bounded_piecewise_monotone.1 1,
    claim1_similarity_bounded_piecewise_monotone.2.1 1 2 (by norm_num)
      (by norm_num),
    claim1_similarity_bounded_piecewise_monotone.2.2 3 4 (by norm_num)
      (by norm_num)⟩

end FAQ
